import Mathlib

/-!
Verification development for the path-order optimizer of this repository
(`src/pathOrderOptimizer.h`).  The header declares the data model
(`ZSeamConfig`, `PathOrderOptimizer`, `LineOrderOptimizer`) and the
signatures and documentation of `optimize`, `getClosestPointInPolygon`,
`updateBestLine`, `getAngleScore` and `travelDistance`; the function
bodies live in a `.cpp` file that is not part of the given sources, so
each body below is modelled from the specification (`spec.md`), faithful
to its words, and every such definition is marked `Modelled from the
spec:` in its doc comment.

Coordinates are the source's fixed-point 2D integer points; distances are
compared as squared distances (the spec itself prescribes squared
distance throughout, "only relative ordering matters"), and the few
real-valued scores are modelled over `ℚ` so that everything stays
executable and decidable.
-/

namespace cura

/-- A 2D point with integer (fixed-point) coordinates, as the source's
`Point` (ClipperLib `IntPoint`). -/
structure Point where
  x : Int
  y : Int
deriving DecidableEq, Repr

/-- Component-wise subtraction of points (vector from `q` to `p`). -/
def Point.sub (p q : Point) : Point := ⟨p.x - q.x, p.y - q.y⟩

/-- Dot product of two points viewed as vectors. -/
def dot (p q : Point) : Int := p.x * q.x + p.y * q.y

/-- Squared Euclidean length of a point viewed as a vector
(the source's `vSize2`). -/
def vSize2 (p : Point) : Int := p.x * p.x + p.y * p.y

/-- Cross product (z-component) of two 2D vectors. -/
def crossZ (p q : Point) : Int := p.x * q.y - p.y * q.x

/-- Rotate a vector 90 degrees counter-clockwise (used for the incoming
perpendicular normal of the line order optimizer). -/
def turn90CCW (p : Point) : Point := ⟨-p.y, p.x⟩

theorem vSize2_nonneg (p : Point) : 0 ≤ vSize2 p := by
  have hx : 0 ≤ p.x * p.x := mul_self_nonneg _
  have hy : 0 ≤ p.y * p.y := mul_self_nonneg _
  simpa [vSize2] using add_nonneg hx hy

/-- The z-seam type enumeration (`EZSeamType` from `settings/settings.h`,
outside the given sources; the spec names the kinds ShortestTravel,
UserSpecified and CornerPreferring). -/
inductive EZSeamType where
  | SHORTEST
  | USER_SPECIFIED
  | SHARPEST_CORNER
deriving DecidableEq, Repr

/-- The corner-preference enumeration (`EZSeamCornerPrefType` from
`settings/settings.h`, outside the given sources; the spec names the
preferences None, FavorConvex, FavorConcave and AnyCorner). -/
inductive EZSeamCornerPrefType where
  | Z_SEAM_CORNER_PREF_NONE
  | Z_SEAM_CORNER_PREF_INNER
  | Z_SEAM_CORNER_PREF_OUTER
  | Z_SEAM_CORNER_PREF_ANY
deriving DecidableEq, Repr

/-- The seam-policy value type `ZSeamConfig` from the header, with the
header's default-constructor values as defaults. -/
structure ZSeamConfig where
  type : EZSeamType := EZSeamType.SHORTEST
  pos : Point := ⟨0, 0⟩
  corner_pref : EZSeamCornerPrefType := EZSeamCornerPrefType.Z_SEAM_CORNER_PREF_NONE
deriving DecidableEq, Repr

/-- First element of the list minimizing `key` (ties resolved toward the
earlier element), used to model the argmin scans of the optimizers. -/
def argminBy {α : Type} {β : Type} [LinearOrder β] (key : α → β) : List α → Option α
  | [] => none
  | a :: rest =>
    match argminBy key rest with
    | none => some a
    | some b => if key a ≤ key b then some a else some b

theorem argminBy_eq_none {α β : Type} [LinearOrder β] (key : α → β) :
    ∀ (l : List α), argminBy key l = none → l = [] := by
  intro l h
  cases l with
  | nil => rfl
  | cons x rest =>
    exfalso
    simp only [argminBy] at h
    cases hrec : argminBy key rest with
    | none => rw [hrec] at h; exact Option.noConfusion h
    | some b =>
      rw [hrec] at h
      dsimp only at h
      by_cases hle : key x ≤ key b
      · rw [if_pos hle] at h; exact Option.noConfusion h
      · rw [if_neg hle] at h; exact Option.noConfusion h

theorem argminBy_mem {α β : Type} [LinearOrder β] (key : α → β) :
    ∀ (l : List α) (a : α), argminBy key l = some a → a ∈ l := by
  intro l
  induction l with
  | nil => intro a h; exact Option.noConfusion h
  | cons x rest ih =>
    intro a h
    simp only [argminBy] at h
    cases hrec : argminBy key rest with
    | none =>
      rw [hrec] at h
      injection h with h
      simp [h]
    | some b =>
      rw [hrec] at h
      dsimp only at h
      by_cases hle : key x ≤ key b
      · rw [if_pos hle] at h
        injection h with h
        simp [h]
      · rw [if_neg hle] at h
        injection h with h
        exact List.mem_cons_of_mem _ (ih a (h ▸ hrec))

theorem argminBy_isSome {α β : Type} [LinearOrder β] (key : α → β) :
    ∀ (l : List α), l ≠ [] → (argminBy key l).isSome := by
  intro l hne
  cases h : argminBy key l with
  | none => exact absurd (argminBy_eq_none key l h) hne
  | some a => rfl

theorem argminBy_min {α β : Type} [LinearOrder β] (key : α → β) :
    ∀ (l : List α) (a : α), argminBy key l = some a →
      ∀ c ∈ l, key a ≤ key c := by
  intro l
  induction l with
  | nil => intro a h; exact Option.noConfusion h
  | cons x rest ih =>
    intro a h c hc
    simp only [argminBy] at h
    cases hrec : argminBy key rest with
    | none =>
      rw [hrec] at h
      injection h with h
      subst h
      rcases List.mem_cons.mp hc with hcx | hcr
      · exact le_of_eq (congrArg key hcx.symm)
      · rw [argminBy_eq_none key rest hrec] at hcr
        exact absurd hcr (List.not_mem_nil c)
    | some b =>
      rw [hrec] at h
      dsimp only at h
      by_cases hle : key x ≤ key b
      · rw [if_pos hle] at h
        injection h with h
        subst h
        rcases List.mem_cons.mp hc with hcx | hcr
        · exact le_of_eq (congrArg key hcx.symm)
        · exact le_trans hle (ih b hrec c hcr)
      · rw [if_neg hle] at h
        injection h with h
        subst h
        rcases List.mem_cons.mp hc with hcx | hcr
        · exact le_trans (le_of_not_le hle) (le_of_eq (congrArg key hcx.symm))
        · exact ih b hrec c hcr

/-- Squared distance from vertex `k` of `poly` to `target` (out-of-range
indices read the default point; the optimizers only use in-range `k`). -/
def distSqTo (target : Point) (poly : List Point) (k : Nat) : Int :=
  vSize2 (Point.sub (poly.getD k ⟨0, 0⟩) target)

/-- Modelled from the spec: corner character of vertex `k` of the closed
contour `poly`, used by the corner-preference bias.  The spec determines
the character from the two edges meeting at that vertex together with the
convex/concave distinction; convexity is read off the cross product sign
of the incoming and outgoing edges, `INNER` favoring a concave notch,
`OUTER` a convex corner, `ANY` either. -/
def cornerMatches (pref : EZSeamCornerPrefType) (poly : List Point) (k : Nat) : Bool :=
  let n := poly.length
  let v := poly.getD k ⟨0, 0⟩
  let vPrev := poly.getD ((k + n - 1) % n) ⟨0, 0⟩
  let vNext := poly.getD ((k + 1) % n) ⟨0, 0⟩
  let e1 := Point.sub v vPrev
  let e2 := Point.sub vNext v
  match pref with
  | EZSeamCornerPrefType.Z_SEAM_CORNER_PREF_NONE => true
  | EZSeamCornerPrefType.Z_SEAM_CORNER_PREF_INNER => decide (crossZ e1 e2 < 0)
  | EZSeamCornerPrefType.Z_SEAM_CORNER_PREF_OUTER => decide (0 < crossZ e1 e2)
  | EZSeamCornerPrefType.Z_SEAM_CORNER_PREF_ANY => decide (crossZ e1 e2 ≠ 0)

/-- Modelled from the spec: the point whose proximity decides a shape's
entry vertex; the policy target under `USER_SPECIFIED` (which ignores the
current travel position), the current travel position otherwise. -/
def seamTarget (config : ZSeamConfig) (prev : Point) : Point :=
  if config.type = EZSeamType.USER_SPECIFIED then config.pos else prev

/-- Modelled from the spec: the near-tied candidate vertices for
corner-preference tie-breaking — vertices whose squared distance to the
target is within a small tolerance (factor 5/4) of the minimum and whose
corner character matches the preference. -/
def nearCandidates (config : ZSeamConfig) (target : Point) (poly : List Point)
    (dmin : Int) : List Nat :=
  (List.range poly.length).filter (fun k =>
    decide (4 * distSqTo target poly k ≤ 5 * dmin) && cornerMatches config.corner_pref poly k)

/-- Modelled from the spec: body of
`PathOrderOptimizer::getClosestPointInPolygon` (declared at
`pathOrderOptimizer.h:77`, body not among the given sources).  Returns the
index of the chosen entry vertex of `poly`, or `none` for a zero-vertex
shape.  Under `USER_SPECIFIED` the vertex nearest the policy's target
position is chosen, ignoring `prev`; otherwise the vertex nearest `prev`
is chosen, with corner-preference tie-breaking among near-tied vertices
when a corner preference is set. -/
def getClosestPointInPolygon (config : ZSeamConfig) (prev : Point) (poly : List Point) :
    Option Nat :=
  match argminBy (distSqTo (seamTarget config prev) poly) (List.range poly.length) with
  | none => none
  | some j =>
    if config.type ≠ EZSeamType.USER_SPECIFIED ∧
        config.corner_pref ≠ EZSeamCornerPrefType.Z_SEAM_CORNER_PREF_NONE then
      match argminBy (distSqTo (seamTarget config prev) poly)
          (nearCandidates config (seamTarget config prev) poly
            (distSqTo (seamTarget config prev) poly j)) with
      | some k => some k
      | none => some j
    else some j

theorem getClosestPointInPolygon_lt_length (config : ZSeamConfig) (prev : Point)
    (poly : List Point) (j : Nat) :
    getClosestPointInPolygon config prev poly = some j → j < poly.length := by
  intro h
  unfold getClosestPointInPolygon at h
  split at h
  · exact Option.noConfusion h
  · rename_i j0 hbase
    have hj0 : j0 < poly.length := List.mem_range.mp (argminBy_mem _ _ _ hbase)
    split at h
    · split at h
      · rename_i k hnear
        injection h with h
        have hk := argminBy_mem _ _ _ hnear
        have hmem : k ∈ List.range poly.length := List.mem_of_mem_filter hk
        exact h ▸ List.mem_range.mp hmem
      · injection h with h
        exact h ▸ hj0
    · injection h with h
      exact h ▸ hj0

theorem getClosestPointInPolygon_isSome (config : ZSeamConfig) (prev : Point)
    (poly : List Point) (hne : poly ≠ []) :
    (getClosestPointInPolygon config prev poly).isSome := by
  unfold getClosestPointInPolygon
  have hlen : poly.length ≠ 0 := fun h => hne (List.length_eq_zero.mp h)
  have hrange : List.range poly.length ≠ [] := by
    intro h
    exact hlen (by simpa using congrArg List.length h)
  split
  · rename_i hbase
    exact absurd (argminBy_eq_none _ _ hbase) hrange
  · split
    · split <;> rfl
    · rfl

/-- Vertex `v` of shape `i` (out-of-range reads give the default point;
the optimizer only uses in-range indices). -/
def vertexAt (polys : List (List Point)) (i v : Nat) : Point :=
  (polys.getD i []).getD v ⟨0, 0⟩

/-- Modelled from the spec: the squared distance from the current
position to the candidate entry vertex of shape `i` — the quantity the
greedy loop minimizes across unvisited shapes. -/
def candDist (polys : List (List Point)) (config : ZSeamConfig) (pos : Point) (i : Nat) :
    Int :=
  match getClosestPointInPolygon config pos (polys.getD i []) with
  | some v => vSize2 (Point.sub (vertexAt polys i v) pos)
  | none => 0

/-- Modelled from the spec: the greedy nearest-neighbor loop of
`PathOrderOptimizer::optimize` (declared at `pathOrderOptimizer.h:74`,
body not among the given sources).  `U` is the unvisited index set (only
shapes with at least one vertex), `fuel` its size; each step selects the
unvisited shape whose candidate entry vertex is closest to the current
position, records `(shape index, entry vertex index)` and moves the
current position to that vertex (a closed contour ends where it was
entered). -/
def greedyGo (polys : List (List Point)) (config : ZSeamConfig) :
    Nat → Point → List Nat → List (Nat × Nat)
  | 0, _, _ => []
  | Nat.succ fuel, pos, U =>
    match argminBy (candDist polys config pos) U with
    | none => []
    | some i =>
      match getClosestPointInPolygon config pos (polys.getD i []) with
      | none => []
      | some v =>
        (i, v) :: greedyGo polys config fuel (vertexAt polys i v) (U.erase i)

/-- Indices of the added shapes that have at least one vertex. -/
def nonEmptyIdxs (polys : List (List Point)) : List Nat :=
  (List.range polys.length).filter (fun i => !(polys.getD i []).isEmpty)

/-- Indices of the added shapes that have zero vertices. -/
def emptyIdxs (polys : List (List Point)) : List Nat :=
  (List.range polys.length).filter (fun i => (polys.getD i []).isEmpty)

/-- The shape order optimizer state from the header: start point, seam
policy, accumulated borrowed shapes, and the two output arrays
`polyStart` / `polyOrder`. -/
structure PathOrderOptimizer where
  startPoint : Point
  config : ZSeamConfig := {}
  polygons : List (List Point) := []
  polyStart : List Int := []
  polyOrder : List Nat := []
deriving DecidableEq, Repr

/-- The header's `PathOrderOptimizer::addPolygon`: appends a borrowed shape. -/
def PathOrderOptimizer.addPolygon (st : PathOrderOptimizer) (poly : List Point) :
    PathOrderOptimizer :=
  { st with polygons := st.polygons ++ [poly] }

/-- Modelled from the spec: body of `PathOrderOptimizer::optimize`
(declared at `pathOrderOptimizer.h:74`, body not among the given
sources).  Runs the greedy nearest-neighbor loop over the shapes with at
least one vertex and sets `polyOrder` / `polyStart`.  Zero-vertex shapes
are excluded from greedy selection, appended at the end of the order so
that the order still covers every added shape, and given the sentinel
entry index `-1` — the documented consistent policy the spec requires. -/
def PathOrderOptimizer.optimize (st : PathOrderOptimizer) : PathOrderOptimizer :=
  { st with
    polyOrder :=
      (greedyGo st.polygons st.config (nonEmptyIdxs st.polygons).length st.startPoint
        (nonEmptyIdxs st.polygons)).map Prod.fst ++ emptyIdxs st.polygons
    polyStart :=
      (List.range st.polygons.length).map (fun i =>
        match (greedyGo st.polygons st.config (nonEmptyIdxs st.polygons).length st.startPoint
            (nonEmptyIdxs st.polygons)).lookup i with
        | some v => (v : Int)
        | none => -1) }

theorem greedyGo_map_fst_perm (polys : List (List Point)) (config : ZSeamConfig) :
    ∀ (fuel : Nat) (pos : Point) (U : List Nat),
      (∀ i ∈ U, polys.getD i [] ≠ []) → fuel = U.length →
      ((greedyGo polys config fuel pos U).map Prod.fst).Perm U := by
  intro fuel
  induction fuel with
  | zero =>
    intro pos U _ hlen
    have : U = [] := List.length_eq_zero.mp hlen.symm
    subst this
    simp [greedyGo]
  | succ n ih =>
    intro pos U hInv hlen
    have hUne : U ≠ [] := by
      intro h
      rw [h] at hlen
      simp at hlen
    cases hsel : argminBy (candDist polys config pos) U with
    | none => exact absurd (argminBy_eq_none _ _ hsel) hUne
    | some i =>
      have hiU : i ∈ U := argminBy_mem _ _ _ hsel
      have hpoly : polys.getD i [] ≠ [] := hInv i hiU
      cases hent : getClosestPointInPolygon config pos (polys.getD i []) with
      | none =>
        have := getClosestPointInPolygon_isSome config pos _ hpoly
        rw [hent] at this
        exact absurd this (by simp)
      | some v =>
        have hstep : greedyGo polys config (n + 1) pos U =
            (i, v) :: greedyGo polys config n (vertexAt polys i v) (U.erase i) := by
          simp only [greedyGo, hsel, hent]
        rw [hstep]
        have hInvE : ∀ j ∈ U.erase i, polys.getD j [] ≠ [] :=
          fun j hj => hInv j (List.mem_of_mem_erase hj)
        have hlenE : n = (U.erase i).length := by
          rw [List.length_erase_of_mem hiU, ← hlen]
          rfl
        have hrec := ih (vertexAt polys i v) (U.erase i) hInvE hlenE
        have hmap : ((i, v) :: greedyGo polys config n (vertexAt polys i v) (U.erase i)).map
            Prod.fst = i :: (greedyGo polys config n (vertexAt polys i v) (U.erase i)).map
            Prod.fst := by simp
        rw [hmap]
        exact (hrec.cons i).trans (List.perm_cons_erase hiU).symm

theorem greedyGo_mem_entry (polys : List (List Point)) (config : ZSeamConfig) :
    ∀ (fuel : Nat) (pos : Point) (U : List Nat) (i v : Nat),
      (i, v) ∈ greedyGo polys config fuel pos U →
      ∃ p, getClosestPointInPolygon config p (polys.getD i []) = some v := by
  intro fuel
  induction fuel with
  | zero => intro pos U i v h; simp [greedyGo] at h
  | succ n ih =>
    intro pos U i v h
    simp only [greedyGo] at h
    cases hsel : argminBy (candDist polys config pos) U with
    | none => rw [hsel] at h; simp at h
    | some i0 =>
      rw [hsel] at h
      dsimp only at h
      cases hent : getClosestPointInPolygon config pos (polys.getD i0 []) with
      | none => rw [hent] at h; simp at h
      | some v0 =>
        rw [hent] at h
        dsimp only at h
        rcases List.mem_cons.mp h with hhead | htail
        · have h1 : i = i0 := congrArg Prod.fst hhead
          have h2 : v = v0 := congrArg Prod.snd hhead
          subst h1
          subst h2
          exact ⟨pos, hent⟩
        · exact ih _ _ i v htail

theorem lookup_mem_of_eq_some {l : List (Nat × Nat)} {k v : Nat}
    (h : l.lookup k = some v) : (k, v) ∈ l := by
  rcases List.lookup_eq_some_iff.mp h with ⟨l₁, l₂, rfl, _⟩
  simp

theorem lookup_isSome_of_mem_fst {l : List (Nat × Nat)} {k : Nat}
    (h : k ∈ l.map Prod.fst) : (l.lookup k).isSome := by
  rcases List.mem_map.mp h with ⟨p, hp, hfst⟩
  rw [List.lookup_isSome_iff]
  exact ⟨p, hp, by simp [hfst]⟩

theorem nonEmptyIdxs_spec (polys : List (List Point)) (i : Nat) :
    i ∈ nonEmptyIdxs polys ↔ i < polys.length ∧ polys.getD i [] ≠ [] := by
  simp [nonEmptyIdxs, List.mem_filter, List.mem_range, List.isEmpty_iff]

theorem emptyIdxs_spec (polys : List (List Point)) (i : Nat) :
    i ∈ emptyIdxs polys ↔ i < polys.length ∧ polys.getD i [] = [] := by
  simp [emptyIdxs, List.mem_filter, List.mem_range, List.isEmpty_iff]

/-- The greedy pass of `optimize`, as one abbreviation for reuse in
lemmas about the outputs. -/
def optimizePicked (st : PathOrderOptimizer) : List (Nat × Nat) :=
  greedyGo st.polygons st.config (nonEmptyIdxs st.polygons).length st.startPoint
    (nonEmptyIdxs st.polygons)

theorem optimizePicked_perm (st : PathOrderOptimizer) :
    ((optimizePicked st).map Prod.fst).Perm (nonEmptyIdxs st.polygons) :=
  greedyGo_map_fst_perm st.polygons st.config _ st.startPoint _
    (fun i hi => ((nonEmptyIdxs_spec st.polygons i).mp hi).2) rfl

theorem optimize_polyOrder_eq (st : PathOrderOptimizer) :
    (st.optimize).polyOrder = (optimizePicked st).map Prod.fst ++ emptyIdxs st.polygons :=
  rfl

theorem optimize_polyStart_eq (st : PathOrderOptimizer) :
    (st.optimize).polyStart = (List.range st.polygons.length).map (fun i =>
      match (optimizePicked st).lookup i with
      | some v => (v : Int)
      | none => -1) :=
  rfl

theorem getD_map_range {α : Type} (n i : Nat) (f : Nat → α) (d : α) (hi : i < n) :
    ((List.range n).map f).getD i d = f i := by
  rw [List.getD_eq_getElem?_getD, List.getElem?_map, List.getElem?_range hi]
  rfl

theorem optimize_polyStart_getD (st : PathOrderOptimizer) (i : Nat)
    (hi : i < st.polygons.length) :
    (st.optimize).polyStart.getD i 0 =
      match (optimizePicked st).lookup i with
      | some v => (v : Int)
      | none => -1 := by
  rw [optimize_polyStart_eq]
  exact getD_map_range _ _ _ _ hi

/-- C1: after `optimize()` the recorded order is a permutation of the
index set `[0, N)` of the added shapes — every index exactly once, and
the empty input yields the empty order (the `N = 0` instance). -/
theorem C1_polyOrder_perm (st : PathOrderOptimizer) :
    (st.optimize).polyOrder.Perm (List.range st.polygons.length) := by
  rw [optimize_polyOrder_eq]
  have h1 := optimizePicked_perm st
  have h2 : (nonEmptyIdxs st.polygons ++ emptyIdxs st.polygons).Perm
      (List.range st.polygons.length) := by
    have := List.filter_append_perm
      (fun i => !(st.polygons.getD i []).isEmpty) (List.range st.polygons.length)
    simpa [nonEmptyIdxs, emptyIdxs, Bool.not_not] using this
  exact (h1.append (List.Perm.refl (emptyIdxs st.polygons))).trans h2

/-- C2: for every added shape with at least one vertex, the recorded
entry index lies in `[0, number of vertices of that shape)`. -/
theorem C2_polyStart_in_range (st : PathOrderOptimizer) (i : Nat)
    (hi : i < st.polygons.length) (hne : st.polygons.getD i [] ≠ []) :
    0 ≤ (st.optimize).polyStart.getD i 0 ∧
      (st.optimize).polyStart.getD i 0 < ((st.polygons.getD i []).length : Int) := by
  have hmem : i ∈ nonEmptyIdxs st.polygons := (nonEmptyIdxs_spec st.polygons i).mpr ⟨hi, hne⟩
  have hfst : i ∈ (optimizePicked st).map Prod.fst :=
    (optimizePicked_perm st).mem_iff.mpr hmem
  have hsome := lookup_isSome_of_mem_fst hfst
  cases hlu : (optimizePicked st).lookup i with
  | none => rw [hlu] at hsome; exact absurd hsome (by simp)
  | some v =>
    have hinp : (i, v) ∈ optimizePicked st := lookup_mem_of_eq_some hlu
    rcases greedyGo_mem_entry st.polygons st.config _ _ _ i v hinp with ⟨p, hent⟩
    have hv : v < (st.polygons.getD i []).length :=
      getClosestPointInPolygon_lt_length _ _ _ _ hent
    rw [optimize_polyStart_getD st i hi, hlu]
    constructor
    · show (0 : Int) ≤ (v : Int)
      exact Int.ofNat_nonneg v
    · show (v : Int) < ((st.polygons.getD i []).length : Int)
      exact_mod_cast hv

/-- Concrete optimizer state used to witness the hypotheses of the
in-range and zero-vertex-shape theorems. -/
def stW : PathOrderOptimizer :=
  { startPoint := ⟨1, 1⟩, polygons := [[⟨0, 0⟩, ⟨2, 0⟩], []] }

theorem C2_polyStart_in_range_witness :
    0 ≤ (stW.optimize).polyStart.getD 0 0 ∧
      (stW.optimize).polyStart.getD 0 0 < ((stW.polygons.getD 0 []).length : Int) :=
  C2_polyStart_in_range stW 0 (by decide) (by decide)

/-- C4: re-running `optimize()` on the unchanged accumulated state (same
shapes, start point and seam policy) reproduces exactly the same
`polyOrder` and `polyStart`; the embedded optimizer is deterministic. -/
theorem C4_optimize_deterministic (st : PathOrderOptimizer) :
    ((st.optimize).optimize).polyOrder = (st.optimize).polyOrder ∧
      ((st.optimize).optimize).polyStart = (st.optimize).polyStart :=
  ⟨rfl, rfl⟩

theorem lookup_eq_none_of_not_mem_fst {l : List (Nat × Nat)} {k : Nat}
    (h : k ∉ l.map Prod.fst) : l.lookup k = none := by
  rw [List.lookup_eq_none_iff]
  intro p hp
  by_contra hbeq
  simp only [bne_iff_ne, ne_eq, not_not] at hbeq
  exact h (List.mem_map.mpr ⟨p, hp, hbeq.symm⟩)

/-- C8: a zero-vertex shape never causes an out-of-range vertex access:
`optimize()` (a total function here, so it terminates) excludes it from
the greedy entry-vertex search, still lists it in the order, and records
the sentinel entry index `-1` for it instead of looking up a vertex. -/
theorem C8_zero_vertex_shape_safe (st : PathOrderOptimizer) (i : Nat)
    (hi : i < st.polygons.length) (hemp : st.polygons.getD i [] = []) :
    (st.optimize).polyStart.getD i 0 = -1 ∧ i ∈ (st.optimize).polyOrder := by
  constructor
  · have hnm : i ∉ nonEmptyIdxs st.polygons := by
      intro hmem
      exact ((nonEmptyIdxs_spec st.polygons i).mp hmem).2 hemp
    have hnf : i ∉ (optimizePicked st).map Prod.fst := by
      intro hmem
      exact hnm ((optimizePicked_perm st).mem_iff.mp hmem)
    rw [optimize_polyStart_getD st i hi, lookup_eq_none_of_not_mem_fst hnf]
  · rw [optimize_polyOrder_eq]
    exact List.mem_append_right _ ((emptyIdxs_spec st.polygons i).mpr ⟨hi, hemp⟩)

theorem C8_zero_vertex_shape_safe_witness :
    (stW.optimize).polyStart.getD 1 0 = -1 ∧ 1 ∈ (stW.optimize).polyOrder :=
  C8_zero_vertex_shape_safe stW 1 (by decide) (by decide)

theorem getClosest_shortest_plain_eq (config : ZSeamConfig) (prev : Point)
    (poly : List Point)
    (hT : config.type ≠ EZSeamType.USER_SPECIFIED)
    (hC : config.corner_pref = EZSeamCornerPrefType.Z_SEAM_CORNER_PREF_NONE) :
    getClosestPointInPolygon config prev poly =
      argminBy (distSqTo prev poly) (List.range poly.length) := by
  have htgt : seamTarget config prev = prev := by simp [seamTarget, hT]
  cases h : argminBy (distSqTo prev poly) (List.range poly.length) with
  | none => simp [getClosestPointInPolygon, htgt, h]
  | some j => simp [getClosestPointInPolygon, htgt, h, hC]

theorem getClosest_user_specified_eq (config : ZSeamConfig) (prev : Point)
    (poly : List Point) (hT : config.type = EZSeamType.USER_SPECIFIED) :
    getClosestPointInPolygon config prev poly =
      argminBy (distSqTo config.pos poly) (List.range poly.length) := by
  have htgt : seamTarget config prev = config.pos := by simp [seamTarget, hT]
  cases h : argminBy (distSqTo config.pos poly) (List.range poly.length) with
  | none => simp [getClosestPointInPolygon, htgt, h]
  | some j => simp [getClosestPointInPolygon, htgt, h, hT]

/-- The three-unit-squares scenario of the spec, scaled by 2 so that all
coordinates are the integer fixed-point units of the source: squares of
half-side 1 centered on the x-axis at x = 0, 20, 40 and start point at
x = -20/2 = -10, i.e. the spec's squares at x = 0, 10, 20 with start at
x = -5 in doubled units. -/
def squareAt (cx : Int) : List Point :=
  [⟨cx - 1, -1⟩, ⟨cx + 1, -1⟩, ⟨cx + 1, 1⟩, ⟨cx - 1, 1⟩]

/-- Shape order optimizer state for the spec's three-squares scenario,
with the default `SHORTEST` seam policy. -/
def threeSquares : PathOrderOptimizer :=
  { startPoint := ⟨-10, 0⟩, polygons := [squareAt 0, squareAt 20, squareAt 40] }

/-- C3: under the `SHORTEST` seam policy (with no corner preference
active) each greedy iteration picks, among all unvisited shapes, the
shape/vertex pair of globally minimal squared distance from the current
position, appends that shape, records that vertex, and continues from
that vertex with the shape removed from the unvisited set; and on the
spec's three-unit-square scenario the resulting order is `[0, 1, 2]`. -/
theorem C3_shortest_greedy_min :
    (∀ (polys : List (List Point)) (config : ZSeamConfig) (pos : Point)
        (U : List Nat) (i v fuel : Nat),
      config.type = EZSeamType.SHORTEST →
      config.corner_pref = EZSeamCornerPrefType.Z_SEAM_CORNER_PREF_NONE →
      argminBy (candDist polys config pos) U = some i →
      getClosestPointInPolygon config pos (polys.getD i []) = some v →
      (i ∈ U ∧
        (∀ j ∈ U, ∀ k, k < (polys.getD j []).length →
          vSize2 (Point.sub (vertexAt polys i v) pos) ≤
            vSize2 (Point.sub (vertexAt polys j k) pos)) ∧
        greedyGo polys config (fuel + 1) pos U =
          (i, v) :: greedyGo polys config fuel (vertexAt polys i v) (U.erase i))) ∧
    (threeSquares.optimize).polyOrder = [0, 1, 2] := by
  constructor
  · intro polys config pos U i v fuel hS hC hsel hent
    have hT : config.type ≠ EZSeamType.USER_SPECIFIED := by rw [hS]; intro h; cases h
    have hiU : i ∈ U := argminBy_mem _ _ _ hsel
    refine ⟨hiU, ?_, ?_⟩
    · intro j hj k hk
      have hmin : candDist polys config pos i ≤ candDist polys config pos j :=
        argminBy_min _ _ _ hsel j hj
      have hdi : candDist polys config pos i =
          vSize2 (Point.sub (vertexAt polys i v) pos) := by
        unfold candDist
        rw [hent]
      have hjne : polys.getD j [] ≠ [] := by
        intro h
        rw [h] at hk
        exact absurd hk (by simp)
      have hjsome := getClosestPointInPolygon_isSome config pos (polys.getD j []) hjne
      cases hentj : getClosestPointInPolygon config pos (polys.getD j []) with
      | none => rw [hentj] at hjsome; exact absurd hjsome (by simp)
      | some ej =>
        have hdj : candDist polys config pos j =
            vSize2 (Point.sub (vertexAt polys j ej) pos) := by
          unfold candDist
          rw [hentj]
        have hej : argminBy (distSqTo pos (polys.getD j []))
            (List.range (polys.getD j []).length) = some ej := by
          rw [← getClosest_shortest_plain_eq config pos (polys.getD j []) hT hC]
          exact hentj
        have hjk : distSqTo pos (polys.getD j []) ej ≤ distSqTo pos (polys.getD j []) k :=
          argminBy_min _ _ _ hej k (List.mem_range.mpr hk)
        have hjk2 : vSize2 (Point.sub (vertexAt polys j ej) pos) ≤
            vSize2 (Point.sub (vertexAt polys j k) pos) := hjk
        calc vSize2 (Point.sub (vertexAt polys i v) pos)
            = candDist polys config pos i := hdi.symm
          _ ≤ candDist polys config pos j := hmin
          _ = vSize2 (Point.sub (vertexAt polys j ej) pos) := hdj
          _ ≤ vSize2 (Point.sub (vertexAt polys j k) pos) := hjk2
    · simp only [greedyGo, hsel, hent]
  · decide

theorem C3_shortest_greedy_min_witness :
    (0 ∈ [0] ∧
      (∀ j ∈ [0], ∀ k, k < (([[(⟨0, 0⟩ : Point)]] : List (List Point)).getD j []).length →
        vSize2 (Point.sub (vertexAt [[⟨0, 0⟩]] 0 0) ⟨1, 0⟩) ≤
          vSize2 (Point.sub (vertexAt [[⟨0, 0⟩]] j k) ⟨1, 0⟩)) ∧
      greedyGo [[⟨0, 0⟩]] {} (0 + 1) ⟨1, 0⟩ [0] =
        (0, 0) :: greedyGo [[⟨0, 0⟩]] {} 0 (vertexAt [[⟨0, 0⟩]] 0 0) ([0].erase 0)) :=
  C3_shortest_greedy_min.1 [[⟨0, 0⟩]] {} ⟨1, 0⟩ [0] 0 0 0 rfl rfl (by decide) (by decide)

theorem vSize2_eq_zero_iff (p : Point) : vSize2 p = 0 ↔ p = ⟨0, 0⟩ := by
  constructor
  · intro h
    have hx : p.x * p.x = 0 := by nlinarith [mul_self_nonneg p.x, mul_self_nonneg p.y,
      (show p.x * p.x + p.y * p.y = 0 by simpa [vSize2] using h)]
    have hy : p.y * p.y = 0 := by nlinarith [mul_self_nonneg p.x, mul_self_nonneg p.y,
      (show p.x * p.x + p.y * p.y = 0 by simpa [vSize2] using h)]
    cases p with
    | mk x y =>
      simp only [Point.mk.injEq]
      exact ⟨mul_self_eq_zero.mp hx, mul_self_eq_zero.mp hy⟩
  · intro h
    rw [h]
    rfl

theorem Point.sub_eq_zero_iff (a b : Point) : Point.sub a b = ⟨0, 0⟩ ↔ a = b := by
  cases a with
  | mk ax ay =>
    cases b with
    | mk bx by_ =>
      simp only [Point.sub, Point.mk.injEq]
      constructor
      · rintro ⟨h1, h2⟩
        exact ⟨by linarith, by linarith⟩
      · rintro ⟨h1, h2⟩
        exact ⟨by linarith, by linarith⟩

/-- C7: under the `USER_SPECIFIED` seam policy the entry vertex of a
shape is the vertex nearest the policy's target position — independent
of the current travel position (first conjunct) and of visit order; in
particular, when the target coincides with exactly one vertex `j` of
shape `P`, the entry index recorded by `optimize()` for `P` is `j`
(second conjunct). -/
theorem C7_user_specified_entry :
    (∀ (config : ZSeamConfig) (p q : Point) (poly : List Point),
      config.type = EZSeamType.USER_SPECIFIED →
      getClosestPointInPolygon config p poly = getClosestPointInPolygon config q poly) ∧
    (∀ (st : PathOrderOptimizer) (P j : Nat),
      st.config.type = EZSeamType.USER_SPECIFIED →
      P < st.polygons.length →
      j < (st.polygons.getD P []).length →
      (st.polygons.getD P []).getD j ⟨0, 0⟩ = st.config.pos →
      (∀ k, k < (st.polygons.getD P []).length → k ≠ j →
        (st.polygons.getD P []).getD k ⟨0, 0⟩ ≠ st.config.pos) →
      (st.optimize).polyStart.getD P 0 = (j : Int)) := by
  constructor
  · intro config p q poly hT
    rw [getClosest_user_specified_eq config p poly hT,
      getClosest_user_specified_eq config q poly hT]
  · intro st P j hT hP hj hvj huniq
    have hne : st.polygons.getD P [] ≠ [] := by
      intro h
      rw [h] at hj
      exact absurd hj (by simp)
    have hmem : P ∈ nonEmptyIdxs st.polygons := (nonEmptyIdxs_spec st.polygons P).mpr ⟨hP, hne⟩
    have hfst : P ∈ (optimizePicked st).map Prod.fst :=
      (optimizePicked_perm st).mem_iff.mpr hmem
    have hsome := lookup_isSome_of_mem_fst hfst
    cases hlu : (optimizePicked st).lookup P with
    | none => rw [hlu] at hsome; exact absurd hsome (by simp)
    | some v =>
      have hinp : (P, v) ∈ optimizePicked st := lookup_mem_of_eq_some hlu
      rcases greedyGo_mem_entry st.polygons st.config _ _ _ P v hinp with ⟨p, hent⟩
      rw [getClosest_user_specified_eq st.config p (st.polygons.getD P []) hT] at hent
      have hvlt : v < (st.polygons.getD P []).length :=
        List.mem_range.mp (argminBy_mem _ _ _ hent)
      have hminj : distSqTo st.config.pos (st.polygons.getD P []) v ≤
          distSqTo st.config.pos (st.polygons.getD P []) j :=
        argminBy_min _ _ _ hent j (List.mem_range.mpr hj)
      have hdj0 : distSqTo st.config.pos (st.polygons.getD P []) j = 0 := by
        unfold distSqTo
        rw [hvj, (Point.sub_eq_zero_iff st.config.pos st.config.pos).mpr rfl]
        rfl
      have hdv0 : distSqTo st.config.pos (st.polygons.getD P []) v = 0 := by
        have h0 : 0 ≤ distSqTo st.config.pos (st.polygons.getD P []) v := vSize2_nonneg _
        omega
      have hveq : (st.polygons.getD P []).getD v ⟨0, 0⟩ = st.config.pos := by
        have := (vSize2_eq_zero_iff _).mp hdv0
        exact (Point.sub_eq_zero_iff _ _).mp this
      have hvj' : v = j := by
        by_contra hvne
        exact huniq v hvlt hvne hveq
      rw [optimize_polyStart_getD st P hP, hlu, hvj']

/-- Concrete optimizer state used to witness the `USER_SPECIFIED`
entry-vertex theorem: the policy target coincides with vertex 1. -/
def stU : PathOrderOptimizer :=
  { startPoint := ⟨9, 9⟩,
    config := { type := EZSeamType.USER_SPECIFIED, pos := ⟨7, 7⟩ },
    polygons := [[⟨5, 5⟩, ⟨7, 7⟩]] }

theorem C7_user_specified_entry_witness :
    (stU.optimize).polyStart.getD 0 0 = (1 : Int) :=
  C7_user_specified_entry.2 stU 0 1 rfl (by decide) (by decide) (by decide) (by decide)

/-- Modelled from the spec: body of `LineOrderOptimizer::getAngleScore`
(declared at `pathOrderOptimizer.h:150`, body not among the given
sources).  The score is computed from the incoming perpendicular normal
against the normalized direction between the two endpoints of the next
line; to stay in exact arithmetic the normalized projection is kept in
squared form (`(n·d)² / |d|²`, the squared sine of the turn angle scaled
by `|n|²`), which preserves the ordering the optimizer needs.  A
zero-length line (coincident endpoints) yields the neutral score `0`
instead of normalizing a zero vector, as the spec's degenerate-handling
rule requires. -/
def getAngleScore (incoming_perpundicular_normal fromPt toPt : Point) : ℚ :=
  if Point.sub toPt fromPt = (⟨0, 0⟩ : Point) then 0
  else ((dot incoming_perpundicular_normal (Point.sub toPt fromPt) : Int) : ℚ) ^ 2 /
    ((vSize2 (Point.sub toPt fromPt) : Int) : ℚ)

/-- C5: the angle score is symmetric in its two endpoint arguments, as
the header documents ("they can be exchanged without altering the
result"). -/
theorem C5_getAngleScore_symm (n a b : Point) :
    getAngleScore n a b = getAngleScore n b a := by
  have hd : dot n (Point.sub a b) = -dot n (Point.sub b a) := by
    cases n with
    | mk nx ny =>
      cases a with
      | mk ax ay =>
        cases b with
        | mk bx by_ =>
          simp only [dot, Point.sub]
          ring
  have hv : vSize2 (Point.sub a b) = vSize2 (Point.sub b a) := by
    cases a with
    | mk ax ay =>
      cases b with
      | mk bx by_ =>
        simp only [vSize2, Point.sub]
        ring
  have hz : Point.sub b a = (⟨0, 0⟩ : Point) ↔ Point.sub a b = (⟨0, 0⟩ : Point) := by
    rw [Point.sub_eq_zero_iff, Point.sub_eq_zero_iff]
    exact eq_comm
  unfold getAngleScore
  by_cases h : Point.sub b a = (⟨0, 0⟩ : Point)
  · rw [if_pos h, if_pos (hz.mp h)]
  · rw [if_neg h, if_neg (fun hh => h (hz.mpr hh))]
    rw [hd, hv]
    push_cast
    ring

/-- C9: a zero-length line gets the neutral angle score `0`; over exact
rationals no division by zero and no invalid value can occur. -/
theorem C9_zero_length_line_neutral (n p : Point) : getAngleScore n p p = 0 := by
  unfold getAngleScore
  rw [if_pos ((Point.sub_eq_zero_iff p p).mpr rfl)]

/-- Orientation sign of `c` relative to the directed segment `a → b`. -/
def sign3 (a b c : Point) : Int := crossZ (Point.sub b a) (Point.sub c a)

/-- Whether `c`, assumed collinear with the segment `a–b`, lies within
its bounding box (the standard on-segment test). -/
def onSeg (a b c : Point) : Bool :=
  decide (min a.x b.x ≤ c.x) && decide (c.x ≤ max a.x b.x) &&
  decide (min a.y b.y ≤ c.y) && decide (c.y ≤ max a.y b.y)

/-- Standard orientation-based test for intersection of the closed
segments `p1–p2` and `q1–q2`. -/
def segsIntersect (p1 p2 q1 q2 : Point) : Bool :=
  let d1 := sign3 q1 q2 p1
  let d2 := sign3 q1 q2 p2
  let d3 := sign3 p1 p2 q1
  let d4 := sign3 p1 p2 q2
  (decide ((0 < d1 ∧ d2 < 0) ∨ (d1 < 0 ∧ 0 < d2)) &&
    decide ((0 < d3 ∧ d4 < 0) ∨ (d3 < 0 ∧ 0 < d4))) ||
  (decide (d1 = 0) && onSeg q1 q2 p1) || (decide (d2 = 0) && onSeg q1 q2 p2) ||
  (decide (d3 = 0) && onSeg p1 p2 q1) || (decide (d4 = 0) && onSeg p1 p2 q2)

/-- The edges of a closed contour, each vertex to its cyclic successor. -/
def polyEdges (poly : List Point) : List (Point × Point) :=
  match poly with
  | [] => []
  | p :: rest => poly.zip (rest ++ [p])

/-- Modelled from the spec: the obstacle-boundary collaborator's
"does segment `p0–p1` cross this boundary" query (spec §6), realized as
segment intersection against every edge of every boundary contour. -/
def crossesBoundary (boundary : List (List Point)) (p0 p1 : Point) : Bool :=
  boundary.any (fun poly => (polyEdges poly).any (fun e => segsIntersect p0 p1 e.1 e.2))

/-- Modelled from the spec: body of `LineOrderOptimizer::travelDistance`
(declared at `pathOrderOptimizer.h:160`, body not among the given
sources), in the squared-distance encoding used throughout this
development (the optimizer only compares distances, and comparison of
squares is order-equivalent).  With `travel_direct` the direct squared
distance is returned; otherwise, if the straight segment crosses the
combing boundary, the distance is conservatively inflated (factor 2 on
the distance, hence 4 on its square), never undercutting the direct
value. -/
def travelDistance2 (boundary : List (List Point)) (p0 p1 : Point)
    (travel_direct : Bool) : Int :=
  if travel_direct then vSize2 (Point.sub p1 p0)
  else if crossesBoundary boundary p0 p1 then 4 * vSize2 (Point.sub p1 p0)
  else vSize2 (Point.sub p1 p0)

/-- C6: the obstacle-aware travel distance with `travel_direct = false`
is never smaller than the direct distance between the same two points,
for every pair of points and every boundary configuration (stated over
squared distances, which is order-equivalent). -/
theorem C6_travelDistance_ge_direct (boundary : List (List Point)) (p0 p1 : Point) :
    vSize2 (Point.sub p1 p0) ≤ travelDistance2 boundary p0 p1 false := by
  unfold travelDistance2
  simp only [Bool.false_eq_true, if_false]
  by_cases h : crossesBoundary boundary p0 p1
  · rw [if_pos h]
    nlinarith [vSize2_nonneg (Point.sub p1 p0)]
  · rw [if_neg h]

/-- The two candidate endpoint indices of a line: its first and last
vertex (a line of at most one vertex has only index 0). -/
def lineEndIdxs (line : List Point) : List Nat :=
  if line.length ≤ 1 then [0] else [0, line.length - 1]

/-- Index of the opposite endpoint of a line entered at endpoint `v`. -/
def lineOtherEnd (line : List Point) (v : Nat) : Nat :=
  if v = 0 then line.length - 1 else 0

/-- Modelled from the spec: body of `LineOrderOptimizer::updateBestLine`
(declared at `pathOrderOptimizer.h:137`, body not among the given
sources).  Folds the candidate endpoints of line `poly_idx` into the
running best `(line, endpoint, score)` triple; the combined score is the
obstacle-aware travel cost to the endpoint minus the angle bonus for the
line's direction against the incoming perpendicular normal.  When
`just_point` is not `-1` only that endpoint is considered, as the header
documents.  Only strict improvement replaces the running best, so ties
keep the earlier candidate. -/
def updateBestLine (polys : List (List Point)) (bnd : List (List Point)) (pos n : Point)
    (poly_idx : Nat) (just_point : Int) (best : Option (Nat × Nat × ℚ)) :
    Option (Nat × Nat × ℚ) :=
  (if just_point < 0 then lineEndIdxs (polys.getD poly_idx []) else [just_point.toNat]).foldl
    (fun acc v =>
      let pv := (polys.getD poly_idx []).getD v ⟨0, 0⟩
      let po := (polys.getD poly_idx []).getD (lineOtherEnd (polys.getD poly_idx []) v) ⟨0, 0⟩
      let score := ((travelDistance2 bnd pos pv false : Int) : ℚ) - getAngleScore n pv po
      match acc with
      | none => some (poly_idx, v, score)
      | some (bi, bv, bs) =>
        if score < bs then some (poly_idx, v, score) else some (bi, bv, bs))
    best

/-- One selection pass of the line order optimizer: fold
`updateBestLine` over the candidate line indices. -/
def selBestLine (polys bnd : List (List Point)) (pos n : Point) (cands : List Nat) :
    Option (Nat × Nat × ℚ) :=
  cands.foldl (fun acc i => updateBestLine polys bnd pos n i (-1) acc) none

/-- Modelled from the spec: candidate pruning through the optional
spatial proximity index (spec §6).  Without an index every unvisited
line is a candidate; with one, only the nearby unvisited lines are,
falling back to the full unvisited list when the index returns none of
them. -/
def lineCands (grid : Option (Point → List Nat)) (pos : Point) (U : List Nat) : List Nat :=
  match grid with
  | none => U
  | some g =>
    if ((g pos).filter (fun i => decide (i ∈ U))).isEmpty then U
    else (g pos).filter (fun i => decide (i ∈ U))

/-- Modelled from the spec: the greedy loop of
`LineOrderOptimizer::optimize` (declared at `pathOrderOptimizer.h:118`,
body not among the given sources).  Each step scores the candidate
endpoints of the candidate lines, takes the best line/endpoint pair,
records it, moves to the line's opposite endpoint, and updates the
incoming perpendicular normal to the printed line's direction turned 90
degrees counter-clockwise. -/
def lineGreedyGo (polys bnd : List (List Point)) (grid : Option (Point → List Nat)) :
    Nat → Point → Point → List Nat → List (Nat × Nat)
  | 0, _, _, _ => []
  | Nat.succ fuel, pos, n, U =>
    match selBestLine polys bnd pos n (lineCands grid pos U) with
    | none => []
    | some (i, v, _) =>
      (i, v) :: lineGreedyGo polys bnd grid fuel
        (vertexAt polys i (lineOtherEnd (polys.getD i []) v))
        (turn90CCW (Point.sub (vertexAt polys i (lineOtherEnd (polys.getD i []) v))
          (vertexAt polys i v)))
        (U.erase i)

/-- The full-linear-scan variant of the line greedy loop: candidate
search always scans every unvisited line (what the spec requires when no
proximity index is supplied). -/
def lineGreedyLinear (polys bnd : List (List Point)) :
    Nat → Point → Point → List Nat → List (Nat × Nat)
  | 0, _, _, _ => []
  | Nat.succ fuel, pos, n, U =>
    match selBestLine polys bnd pos n U with
    | none => []
    | some (i, v, _) =>
      (i, v) :: lineGreedyLinear polys bnd fuel
        (vertexAt polys i (lineOtherEnd (polys.getD i []) v))
        (turn90CCW (Point.sub (vertexAt polys i (lineOtherEnd (polys.getD i []) v))
          (vertexAt polys i v)))
        (U.erase i)

/-- The line order optimizer state from the header: start point,
accumulated borrowed lines, output arrays, the optional spatial
proximity index `loc_to_line` and the optional combing boundary. -/
structure LineOrderOptimizer where
  startPoint : Point
  polygons : List (List Point) := []
  polyStart : List Int := []
  polyOrder : List Nat := []
  loc_to_line : Option (Point → List Nat) := none
  combing_boundary : Option (List (List Point)) := none

/-- The header's `LineOrderOptimizer::addPolygon`: appends a borrowed line. -/
def LineOrderOptimizer.addPolygon (st : LineOrderOptimizer) (poly : List Point) :
    LineOrderOptimizer :=
  { st with polygons := st.polygons ++ [poly] }

/-- The greedy pass of the line optimizer (abbreviation for lemmas). -/
def linePicked (st : LineOrderOptimizer) : List (Nat × Nat) :=
  lineGreedyGo st.polygons (st.combing_boundary.getD []) st.loc_to_line
    (nonEmptyIdxs st.polygons).length st.startPoint ⟨0, 0⟩ (nonEmptyIdxs st.polygons)

/-- Modelled from the spec: body of `LineOrderOptimizer::optimize`
(declared at `pathOrderOptimizer.h:118`, body not among the given
sources).  Runs the line greedy loop (initial incoming normal is the
zero vector: there is no previous line, so the angle contribution starts
neutral) and records order and chosen endpoints; zero-vertex lines are
handled exactly as in the shape optimizer (excluded from selection,
appended to the order, sentinel entry `-1`). -/
def LineOrderOptimizer.optimize (st : LineOrderOptimizer) : LineOrderOptimizer :=
  { st with
    polyOrder := (linePicked st).map Prod.fst ++ emptyIdxs st.polygons
    polyStart := (List.range st.polygons.length).map (fun i =>
      match (linePicked st).lookup i with
      | some v => (v : Int)
      | none => -1) }

theorem lineGreedyGo_none_eq (polys bnd : List (List Point)) :
    ∀ (fuel : Nat) (pos n : Point) (U : List Nat),
      lineGreedyGo polys bnd none fuel pos n U = lineGreedyLinear polys bnd fuel pos n U := by
  intro fuel
  induction fuel with
  | zero => intro pos n U; rfl
  | succ f ih =>
    intro pos n U
    simp only [lineGreedyGo, lineGreedyLinear, lineCands]
    cases h : selBestLine polys bnd pos n U with
    | none => rfl
    | some t =>
      obtain ⟨i, v, s⟩ := t
      simp only
      congr 1
      exact ih _ _ _

theorem filter_decide_mem_eq_of_sublist :
    ∀ {U l : List Nat}, U.Sublist l → l.Nodup →
      l.filter (fun i => decide (i ∈ U)) = U := by
  intro U l hsub
  induction hsub with
  | slnil => intro _; rfl
  | cons a hs ih =>
    rename_i U1 l2
    intro hnd
    have hnd2 : l2.Nodup := (List.nodup_cons.mp hnd).2
    have ha : a ∉ l2 := (List.nodup_cons.mp hnd).1
    have haU : a ∉ U1 := fun hmem => ha (hs.subset hmem)
    rw [List.filter_cons]
    have hdec : decide (a ∈ U1) = false := by simpa using haU
    rw [hdec]
    simp only [Bool.false_eq_true, if_false]
    exact ih hnd2
  | cons₂ a hs ih =>
    rename_i U1 l2
    intro hnd
    have hnd2 : l2.Nodup := (List.nodup_cons.mp hnd).2
    have ha : a ∉ l2 := (List.nodup_cons.mp hnd).1
    rw [List.filter_cons]
    have hdec : decide (a ∈ a :: U1) = true := by simp
    rw [hdec]
    simp only [if_true]
    congr 1
    have hcg : List.filter (fun i => decide (i ∈ a :: U1)) l2 =
        List.filter (fun i => decide (i ∈ U1)) l2 :=
      List.filter_congr (fun i hi => by
        have hne : i ≠ a := fun h => ha (h ▸ hi)
        simp [List.mem_cons, hne])
    rw [hcg]
    exact ih hnd2

theorem lineCands_complete (N : Nat) (pos : Point) (U : List Nat)
    (hsub : U.Sublist (List.range N)) :
    lineCands (some (fun _ => List.range N)) pos U = U := by
  simp only [lineCands]
  rw [filter_decide_mem_eq_of_sublist hsub (List.nodup_range N)]
  exact ite_self U

theorem lineGreedyGo_complete_eq (polys bnd : List (List Point)) (N : Nat) :
    ∀ (fuel : Nat) (pos n : Point) (U : List Nat), U.Sublist (List.range N) →
      lineGreedyGo polys bnd (some (fun _ => List.range N)) fuel pos n U =
        lineGreedyGo polys bnd none fuel pos n U := by
  intro fuel
  induction fuel with
  | zero => intro pos n U _; rfl
  | succ f ih =>
    intro pos n U hsub
    have hc := lineCands_complete N pos U hsub
    have hnone : lineCands none pos U = U := rfl
    simp only [lineGreedyGo]
    rw [hc, hnone]
    cases h : selBestLine polys bnd pos n U with
    | none => rfl
    | some t =>
      obtain ⟨i, v, s⟩ := t
      dsimp only
      congr 1
      exact ih _ _ _ ((List.erase_sublist i U).trans hsub)

theorem lineOptimize_polyOrder_eq (st : LineOrderOptimizer) :
    (st.optimize).polyOrder = (linePicked st).map Prod.fst ++ emptyIdxs st.polygons :=
  rfl

theorem lineOptimize_polyStart_eq (st : LineOrderOptimizer) :
    (st.optimize).polyStart = (List.range st.polygons.length).map (fun i =>
      match (linePicked st).lookup i with
      | some v => (v : Int)
      | none => -1) :=
  rfl

/-- C10: when no spatial proximity index is supplied the line order
optimizer does not fail — its candidate search is exactly the full
linear scan over all unvisited lines (first conjunct, an equality of the
total loop functions) — and the pruned search is equivalent: running
with an index that honors the collaborator contract over every line
(returning all of them) produces identical order and entry outputs to
running with no index at all (second conjunct). -/
theorem C10_no_proximity_index_graceful :
    (∀ (polys bnd : List (List Point)) (fuel : Nat) (pos n : Point) (U : List Nat),
      lineGreedyGo polys bnd none fuel pos n U = lineGreedyLinear polys bnd fuel pos n U) ∧
    (∀ st : LineOrderOptimizer,
      (LineOrderOptimizer.optimize
          { st with loc_to_line := some (fun _ => List.range st.polygons.length) }).polyOrder =
        (LineOrderOptimizer.optimize { st with loc_to_line := none }).polyOrder ∧
      (LineOrderOptimizer.optimize
          { st with loc_to_line := some (fun _ => List.range st.polygons.length) }).polyStart =
        (LineOrderOptimizer.optimize { st with loc_to_line := none }).polyStart) := by
  constructor
  · exact lineGreedyGo_none_eq
  · intro st
    have hpick : linePicked { st with loc_to_line := some (fun _ => List.range st.polygons.length) } =
        linePicked { st with loc_to_line := none } := by
      unfold linePicked
      exact lineGreedyGo_complete_eq _ _ _ _ _ _ _ (List.filter_sublist _)
    constructor
    · rw [lineOptimize_polyOrder_eq, lineOptimize_polyOrder_eq, hpick]
    · rw [lineOptimize_polyStart_eq, lineOptimize_polyStart_eq, hpick]

end cura
